import Mathlib

/-!
Verification of the b3js hash library (`src/blake3.ts`) against its
natural-language specification.  The TypeScript source is shallowly embedded:
32-bit words are `Nat` reduced modulo `2^32` where the source relies on
`Uint32Array` / `>>> 0` coercions, byte buffers are `List Nat`, the mutable
`Blake3Hasher` object is a record threaded through explicit state-passing
functions, and the `while` loops of the source become fuel-based structural
recursions (the fuel is always sufficient for the loop's actual trip count,
so the embedding computes exactly what the source computes).
-/

namespace B3

/-- The eight initialization constants (`IV` in the source). -/
def IV : List Nat :=
  [0x6a09e667, 0xbb67ae85, 0x3c6ef372, 0xa54ff53a,
   0x510e527f, 0x9b05688c, 0x1f83d9ab, 0x5be0cd19]

/-- The fixed 16-entry message index table (`MSG_PERMUTATION` in the source). -/
def MSG_PERMUTATION : List Nat :=
  [2, 6, 3, 10, 7, 0, 4, 13, 1, 11, 12, 5, 9, 14, 15, 8]

def CHUNK_LEN : Nat := 1024
def BLOCK_LEN : Nat := 64
def KEY_LEN : Nat := 32
def OUT_LEN : Nat := 32

def CHUNK_START : Nat := 1
def CHUNK_END : Nat := 2
def PARENT : Nat := 4
def ROOT : Nat := 8
def KEYED_HASH : Nat := 16
def DERIVE_KEY_CONTEXT : Nat := 32
def DERIVE_KEY_MATERIAL : Nat := 64

/-- 32-bit right rotation (`rotr32` in the source); the `% 2^32` models the
`Uint32Array` store coercion applied to the rotated value. -/
def rotr32 (x n : Nat) : Nat :=
  ((x >>> n) ||| (x <<< (32 - n))) % 4294967296

/-- The G mixing function of the source, acting on a 16-word state held as a
list; `state[i] = e` becomes `List.set`, reads become `List.getD`. -/
def g (state : List Nat) (a b c d mx my : Nat) : List Nat :=
  let state := state.set a ((state.getD a 0 + state.getD b 0 + mx) % 4294967296)
  let state := state.set d (rotr32 (state.getD d 0 ^^^ state.getD a 0) 16)
  let state := state.set c ((state.getD c 0 + state.getD d 0) % 4294967296)
  let state := state.set b (rotr32 (state.getD b 0 ^^^ state.getD c 0) 12)
  let state := state.set a ((state.getD a 0 + state.getD b 0 + my) % 4294967296)
  let state := state.set d (rotr32 (state.getD d 0 ^^^ state.getD a 0) 8)
  let state := state.set c ((state.getD c 0 + state.getD d 0) % 4294967296)
  state.set b (rotr32 (state.getD b 0 ^^^ state.getD c 0) 7)

/-- `target.set(src, offset)` of `Uint32Array`: overwrite consecutive entries
of `s` starting at `off` with the elements of `xs`. -/
def setSlice : List Nat → Nat → List Nat → List Nat
  | s, _, [] => s
  | s, off, x :: xs => setSlice (s.set off x) (off + 1) xs

/-- The state initialization of `compress` exactly as the source performs it:
a zero state, then `state.set(chainingValue, 0)`, then `state.set(IV, 4)`
(all eight IV words, starting at word 4), then counter halves, block length
and flags in words 12-15. -/
def compressInit (chainingValue : List Nat) (counter blockLen flags : Nat) : List Nat :=
  let state := List.replicate 16 0
  let state := setSlice state 0 chainingValue
  let state := setSlice state 4 IV
  let counterLow := counter % 4294967296
  let counterHigh := counter / 4294967296 % 4294967296
  ((((state.set 12 counterLow).set 13 counterHigh).set 14 blockLen).set 15 flags)

/-- One round of `compress`: four column G calls and four diagonal G calls,
with message words read through the fixed table `MSG_PERMUTATION`, exactly as
the source's round-loop body does on every iteration. -/
def gRound (state blockWords : List Nat) : List Nat :=
  let m := fun i => blockWords.getD (MSG_PERMUTATION.getD i 0) 0
  let state := g state 0 4 8 12 (m 0) (m 1)
  let state := g state 1 5 9 13 (m 2) (m 3)
  let state := g state 2 6 10 14 (m 4) (m 5)
  let state := g state 3 7 11 15 (m 6) (m 7)
  let state := g state 0 5 10 15 (m 8) (m 9)
  let state := g state 1 6 11 12 (m 10) (m 11)
  let state := g state 2 7 8 13 (m 12) (m 13)
  g state 3 4 9 14 (m 14) (m 15)

/-- The final feed-forward loop of `compress`: for i in 0..7,
`state[i] ^= state[i+8]` then `state[i+8] ^= chainingValue[i]`. -/
def feedForward (chainingValue state : List Nat) : List Nat :=
  (List.range 8).foldl
    (fun st i =>
      let st := st.set i (st.getD i 0 ^^^ st.getD (i + 8) 0)
      st.set (i + 8) (st.getD (i + 8) 0 ^^^ chainingValue.getD i 0))
    state

/-- The full 16-word state at the end of `compress`, before the source
truncates it with `state.slice(0, 8)`. -/
def compressFull (chainingValue blockWords : List Nat) (counter blockLen flags : Nat) : List Nat :=
  let state := compressInit chainingValue counter blockLen flags
  let state := (List.range 7).foldl (fun st _ => gRound st blockWords) state
  feedForward chainingValue state

/-- The source's `compress`: it returns `state.slice(0, 8)`, i.e. only the
first eight words of the final state. -/
def compress (chainingValue blockWords : List Nat) (counter blockLen flags : Nat) : List Nat :=
  (compressFull chainingValue blockWords counter blockLen flags).take 8

/-- `wordsFromBytes`: sixteen little-endian 32-bit words from a byte list;
missing bytes read as 0, as the source's out-of-range `Uint8Array` reads
coerce `undefined` to 0 in the bitwise expressions. -/
def wordsFromBytes (bytes : List Nat) : List Nat :=
  (List.range 16).map fun i =>
    bytes.getD (4 * i) 0 + bytes.getD (4 * i + 1) 0 * 256 +
    bytes.getD (4 * i + 2) 0 * 65536 + bytes.getD (4 * i + 3) 0 * 16777216

/-- `wordsToBytes`: little-endian byte serialization of a word list. -/
def wordsToBytes (words : List Nat) : List Nat :=
  words.foldr
    (fun wd acc =>
      (wd &&& 255) :: ((wd >>> 8) &&& 255) :: ((wd >>> 16) &&& 255) :: ((wd >>> 24) &&& 255) :: acc)
    []

/-- `first8Words()` of the source: `IV.slice(0, 8)`. -/
def first8Words : List Nat := IV.take 8

/-- The mutable fields of the `Blake3Hasher` class.  The source's `block` is a
persistent 64-byte scratch array of which only the first `blockLen` bytes are
live; the embedding keeps exactly those live bytes, so `block.length =
blockLen` for every reachable state.  The source's separate `stackLen` field
always equals `stack.length` and is dropped. -/
structure Blake3Hasher where
  chainingValue : List Nat
  chunkCounter : Nat
  block : List Nat
  blockLen : Nat
  flags : Nat
  stack : List (List Nat)
  deriving DecidableEq

/-- Errors of the library surface; the source throws on a keyed construction
whose key is not exactly 32 bytes. -/
inductive Blake3Error where
  | invalidKeyLength
  deriving DecidableEq

/-- The `Blake3Hasher` constructor.  With a key: reject non-32-byte keys,
otherwise the chaining value is `wordsFromBytes(key.slice(0, 32))` (sixteen
words, the upper eight zero) and `KEYED_HASH` is OR-ed into the flags.
Without a key: `first8Words()` and the flags argument unchanged. -/
def mkHasher (key : Option (List Nat)) (flags : Nat) : Except Blake3Error Blake3Hasher :=
  match key with
  | some k =>
    if k.length ≠ KEY_LEN then .error .invalidKeyLength
    else .ok { chainingValue := wordsFromBytes (k.take KEY_LEN), chunkCounter := 0,
               block := [], blockLen := 0, flags := flags ||| KEYED_HASH, stack := [] }
  | none =>
    .ok { chainingValue := first8Words, chunkCounter := 0,
          block := [], blockLen := 0, flags := flags, stack := [] }

/-- `new Blake3Hasher()` with no key and no flags, as built by `hash` and
`createHasher`. -/
def freshHasher : Blake3Hasher :=
  { chainingValue := first8Words, chunkCounter := 0,
    block := [], blockLen := 0, flags := 0, stack := [] }

/-- The private `compressBlock` method: compress the full buffered block with
the chunk counter; the flags expression OR-s `CHUNK_END` (twice) only when the
buffer is not a full 64 bytes, mirroring both conditionals of the source. -/
def compressBlock (h : Blake3Hasher) : Blake3Hasher :=
  let blockWords := wordsFromBytes h.block
  let flags := if h.blockLen = BLOCK_LEN then h.flags else h.flags ||| CHUNK_END
  let newCV := compress h.chainingValue blockWords h.chunkCounter h.blockLen
    (flags ||| (if h.blockLen = BLOCK_LEN then 0 else CHUNK_END))
  { h with chainingValue := newCV }

/-- `getLevel`: count trailing zero bits of `index + 1`, by the source's loop
`while (pos > 0 && (pos & 1) === 0) { level++; pos >>= 1 }`; the fuel bounds
the number of halvings and `pos` itself always suffices. -/
def ctzAux : Nat → Nat → Nat
  | 0, _ => 0
  | fuel + 1, pos => if 0 < pos ∧ pos % 2 = 0 then ctzAux fuel (pos / 2) + 1 else 0

def getLevel (index : Nat) : Nat := ctzAux (index + 1) (index + 1)

/-- `parentOutput`: compress the concatenated child CVs (left in words 0-7,
right in words 8-15) with the `PARENT` flag, counter 0, block length 64, and
the hasher's current chaining value (its first eight words) as CV input. -/
def parentOutput (h : Blake3Hasher) (left right : List Nat) : List Nat :=
  let blockWords := setSlice (setSlice (List.replicate 16 0) 0 left) 8 right
  compress (h.chainingValue.take 8) blockWords 0 BLOCK_LEN (h.flags ||| PARENT)

/-- The merge loop of `addChunkChainingValue`: while the stack has more than
one entry and the top two entries (positions `len-2` and `len-1`) have equal
`getLevel`, replace them by their `parentOutput`.  Each iteration shortens the
stack, so `stack.length` is sufficient fuel. -/
def mergeLoop : Nat → Blake3Hasher → Blake3Hasher
  | 0, h => h
  | fuel + 1, h =>
    if 1 < h.stack.length then
      let n := h.stack.length
      let right := h.stack.getD (n - 1) []
      let left := h.stack.getD (n - 2) []
      if getLevel (n - 2) = getLevel (n - 1) then
        mergeLoop fuel { h with stack := h.stack.take (n - 2) ++ [parentOutput h left right] }
      else h
    else h

/-- `addChunkChainingValue`: push the chunk CV, then run the merge loop. -/
def addChunkChainingValue (h : Blake3Hasher) (cv : List Nat) : Blake3Hasher :=
  mergeLoop (h.stack.length + 1) { h with stack := h.stack ++ [cv] }

/-- `compressChunk`: compress the sixteen 64-byte blocks of a 1024-byte chunk
sequentially from the hasher's chaining value, with `CHUNK_START` on the first
block (cleared after it via `chunkFlags &= ~CHUNK_START`) and `CHUNK_END` on
the sixteenth, every block using the chunk's counter; then push the final CV. -/
def compressChunk (h : Blake3Hasher) (chunk : List Nat) (counter : Nat) : Blake3Hasher :=
  let step := fun (p : List Nat × Nat) (i : Nat) =>
    let blockWords := wordsFromBytes ((chunk.drop (i * BLOCK_LEN)).take BLOCK_LEN)
    let chunkFlags := if (i + 1) * BLOCK_LEN = CHUNK_LEN then p.2 ||| CHUNK_END else p.2
    (compress p.1 blockWords counter BLOCK_LEN chunkFlags, chunkFlags &&& 4294967294)
  let r := (List.range 16).foldl step (h.chainingValue, h.flags ||| CHUNK_START)
  addChunkChainingValue h r.1

/-- The partial-block phase at the top of the `update` loop body: top up the
pending buffer and, if it reaches 64 bytes, compress it and reset the buffer. -/
def fillPartial (h : Blake3Hasher) (data : List Nat) : Blake3Hasher × List Nat :=
  if 0 < h.blockLen then
    let tk := min (BLOCK_LEN - h.blockLen) data.length
    let h := { h with block := h.block ++ data.take tk, blockLen := h.blockLen + tk }
    let data := data.drop tk
    if h.blockLen = BLOCK_LEN then ({ compressBlock h with blockLen := 0, block := [] }, data)
    else (h, data)
  else (h, data)

/-- The inner `while (offset + CHUNK_LEN <= data.length)` loop of `update`:
compress full 1024-byte chunks, incrementing the chunk counter per chunk. -/
def chunkLoop : Nat → Blake3Hasher → List Nat → Blake3Hasher × List Nat
  | 0, h, data => (h, data)
  | fuel + 1, h, data =>
    if CHUNK_LEN ≤ data.length then
      let h := compressChunk h (data.take CHUNK_LEN) h.chunkCounter
      chunkLoop fuel { h with chunkCounter := h.chunkCounter + 1 } (data.drop CHUNK_LEN)
    else (h, data)

/-- The trailing phase of the `update` loop body: buffer up to
`64 - blockLen` of the remaining bytes. -/
def fillRemaining (h : Blake3Hasher) (data : List Nat) : Blake3Hasher × List Nat :=
  if data.isEmpty then (h, data)
  else
    let want := min data.length (BLOCK_LEN - h.blockLen)
    ({ h with block := h.block ++ data.take want, blockLen := h.blockLen + want }, data.drop want)

/-- The outer `while (offset < data.length)` loop of `update`; each iteration
runs the three phases above.  Every iteration of the source loop consumes at
least one input byte, so `data.length + 1` is sufficient fuel. -/
def updateLoop : Nat → Blake3Hasher → List Nat → Blake3Hasher
  | 0, h, _ => h
  | fuel + 1, h, data =>
    if data.isEmpty then h
    else
      let p1 := fillPartial h data
      let p2 := chunkLoop (p1.2.length / CHUNK_LEN + 1) p1.1 p1.2
      let p3 := fillRemaining p2.1 p2.2
      updateLoop fuel p3.1 p3.2

/-- The `update` method on byte input. -/
def update (h : Blake3Hasher) (data : List Nat) : Blake3Hasher :=
  updateLoop (data.length + 1) h data

/-- The extra-slice loop of `expandOutput`: starting at byte offset 32 and
counter 1, each iteration compresses the zero-padded `rootOutput` words as the
message block with the `ROOT` flag and appends up to 32 of the resulting
bytes.  Each iteration emits at least one byte, so `outLen` bounds the trips. -/
def expandLoop : Nat → Nat → List Nat → Nat → Nat → Nat → List Nat
  | 0, _, _, _, _, _ => []
  | fuel + 1, flags, rootOutput, counter, offset, outLen =>
    if offset < outLen then
      let blockWords := setSlice (List.replicate 16 0) 0 rootOutput
      let blockOutput := compress first8Words blockWords counter BLOCK_LEN (flags ||| ROOT)
      let tk := min OUT_LEN (outLen - offset)
      (wordsToBytes blockOutput).take tk ++
        expandLoop fuel flags rootOutput (counter + 1) (offset + tk) outLen
    else []

/-- `expandOutput`: first `min(32, outLen)` bytes come from the root output
words directly; any further bytes come from `expandLoop`. -/
def expandOutput (flags : Nat) (rootOutput : List Nat) (outLen : Nat) : List Nat :=
  let first := (wordsToBytes rootOutput).take (min OUT_LEN outLen)
  if outLen ≤ OUT_LEN then first
  else first ++ expandLoop outLen flags rootOutput 1 OUT_LEN outLen

/-- The first phase of `finalize`: if a partial block is pending, compress it
(with `CHUNK_START` when no chunk has completed, and `CHUNK_END` always), push
the resulting CV onto the stack, and clear the buffer. -/
def finalizePending (h : Blake3Hasher) : Blake3Hasher :=
  if 0 < h.blockLen then
    let flags := h.flags ||| (if h.chunkCounter = 0 then CHUNK_START else 0) ||| CHUNK_END
    let cv := compress h.chainingValue (wordsFromBytes h.block) h.chunkCounter h.blockLen flags
    { addChunkChainingValue h cv with blockLen := 0, block := [] }
  else h

/-- The output phase of `finalize` on the post-pending state: the empty-input
path compresses an all-zero block and then root-compresses the zero-padded
result CV; otherwise the stack entries are folded left-to-right through
`parentOutput` and the resulting CV is root-compressed the same way; either
way the root compression uses `first8Words`, counter 0, block length 64 and
`flags | ROOT`, and the result feeds `expandOutput`. -/
def rootBytes (h : Blake3Hasher) (outLen : Nat) : List Nat :=
  if h.chunkCounter = 0 ∧ h.stack.length = 0 then
    let cv := compress h.chainingValue (List.replicate 16 0) 0 0
      (h.flags ||| CHUNK_START ||| CHUNK_END)
    let rootOutput := compress first8Words (setSlice (List.replicate 16 0) 0 cv) 0 BLOCK_LEN
      (h.flags ||| ROOT)
    expandOutput h.flags rootOutput outLen
  else
    let rootCV := (h.stack.drop 1).foldl (fun acc c => parentOutput h acc c) (h.stack.getD 0 [])
    let rootOutput := compress first8Words (setSlice (List.replicate 16 0) 0 rootCV) 0 BLOCK_LEN
      (h.flags ||| ROOT)
    expandOutput h.flags rootOutput outLen

/-- The `finalize` method: mutate the hasher via `finalizePending`, then
return the expanded output together with the mutated hasher state. -/
def finalize (h : Blake3Hasher) (outLen : Nat) : List Nat × Blake3Hasher :=
  let h1 := finalizePending h
  (rootBytes h1 outLen, h1)

/-- The module-level `hash` function: fresh unkeyed hasher, one update, one
finalize. -/
def hash (input : List Nat) (outLen : Nat) : List Nat :=
  (finalize (update freshHasher input) outLen).1

/-- The module-level `keyedHash` function: keyed construction (which may
reject the key), one update, one finalize. -/
def keyedHash (key input : List Nat) (outLen : Nat) : Except Blake3Error (List Nat) :=
  (mkHasher (some key) KEYED_HASH).map fun h => (finalize (update h input) outLen).1

/-- `deriveKeyFromContext`: hash the context bytes with a hasher keyed by
`key` and flagged `DERIVE_KEY_CONTEXT`, finalize to 32 bytes, and reparse
those bytes as words. -/
def deriveKeyFromContext (key context : List Nat) : Except Blake3Error (List Nat) :=
  (mkHasher (some key) DERIVE_KEY_CONTEXT).map fun h =>
    wordsFromBytes (((finalize (update h context) KEY_LEN).1).take KEY_LEN)

/-- The module-level `deriveKey` function: stage 1 derives the context key
from the context bytes using the all-zero 32-byte key; stage 2 hashes the key
material with a hasher keyed by the first eight context-key words and flagged
`DERIVE_KEY_MATERIAL`. -/
def deriveKey (context material : List Nat) (outLen : Nat) : Except Blake3Error (List Nat) := do
  let contextKeyWords ← deriveKeyFromContext (List.replicate KEY_LEN 0) context
  let contextKeyBytes := wordsToBytes (contextKeyWords.take 8)
  let h ← mkHasher (some contextKeyBytes) DERIVE_KEY_MATERIAL
  pure (finalize (update h material) outLen).1

/-! ### Definitions written from the specification's words, for comparison
with the source-derived definitions above. -/

/-- The 16-word initial state as claim C1 words it: the full 8-word chaining
value in words 0-7, four fixed constants in words 8-11, then counter halves,
block length and flags. -/
def specInitC1 (cv : List Nat) (counter blockLen flags : Nat) : List Nat :=
  cv.take 8 ++ IV.take 4 ++
    [counter % 4294967296, counter / 4294967296 % 4294967296, blockLen, flags]

/-- A compression that runs the source's rounds and feed-forward on top of
the initial state layout claimed by C1. -/
def specCompressC1 (cv b : List Nat) (counter blockLen flags : Nat) : List Nat :=
  let state := specInitC1 cv counter blockLen flags
  let state := (List.range 7).foldl (fun st _ => gRound st b) state
  (feedForward cv state).take 8

/-- One application of the fixed table to a 16-word message list:
entry `j` of the result is entry `MSG_PERMUTATION[j]` of the input. -/
def msgSchedule (b : List Nat) : List Nat :=
  MSG_PERMUTATION.map fun i => b.getD i 0

/-- A round that consumes a pre-arranged message word list positionally
(words 0 and 1 in the first column G call, and so on). -/
def gRoundScheduled (state m : List Nat) : List Nat :=
  let x := fun i => m.getD i 0
  let state := g state 0 4 8 12 (x 0) (x 1)
  let state := g state 1 5 9 13 (x 2) (x 3)
  let state := g state 2 6 10 14 (x 4) (x 5)
  let state := g state 3 7 11 15 (x 6) (x 7)
  let state := g state 0 5 10 15 (x 8) (x 9)
  let state := g state 1 6 11 12 (x 10) (x 11)
  let state := g state 2 7 8 13 (x 12) (x 13)
  g state 3 4 9 14 (x 14) (x 15)

/-- `compress` reformulated with the table applied once, up front: every
round consumes the same word list `msgSchedule b` positionally. -/
def compressViaFixedSchedule (cv b : List Nat) (counter blockLen flags : Nat) : List Nat :=
  let state := compressInit cv counter blockLen flags
  let state := (List.range 7).foldl (fun st _ => gRoundScheduled st (msgSchedule b)) state
  (feedForward cv state).take 8

/-- The round schedule as claim C2 words it: round 0 consumes the unpermuted
block positionally, and the table is re-applied to reorder the message words
after every round except the last, so round `r+1` consumes the permutation of
round `r`'s word order. -/
def specRoundsC2 (state b : List Nat) : List Nat :=
  let step := fun (p : List Nat × List Nat) (r : Nat) =>
    (gRoundScheduled p.1 p.2, if r < 6 then msgSchedule p.2 else p.2)
  ((List.range 7).foldl step (state, b)).1

/-- A compression using the source's state initialization and feed-forward
but the re-permuting round schedule claimed by C2. -/
def specCompressC2 (cv b : List Nat) (counter blockLen flags : Nat) : List Nat :=
  (feedForward cv (specRoundsC2 (compressInit cv counter blockLen flags) b)).take 8

/-- The chaining value of the final (pre-root) node that `finalize` computes
on the post-pending state: the empty-input single-block CV when nothing was
ever hashed, otherwise the left-to-right `parentOutput` fold of the stack. -/
def finalNodeCV (h : Blake3Hasher) : List Nat :=
  if h.chunkCounter = 0 ∧ h.stack.length = 0 then
    compress h.chainingValue (List.replicate 16 0) 0 0 (h.flags ||| CHUNK_START ||| CHUNK_END)
  else
    (h.stack.drop 1).foldl (fun acc c => parentOutput h acc c) (h.stack.getD 0 [])

/-- The extra output slices beyond the first 32 bytes, phrased by the number
of bytes still owed: each slice is a `ROOT`-flagged compression of the
zero-padded root output words at the next counter value, truncated at the
end. -/
def expandTail : Nat → Nat → List Nat → Nat → Nat → List Nat
  | 0, _, _, _, _ => []
  | fuel + 1, flags, rootOutput, counter, rem =>
    if rem = 0 then []
    else
      let blockOutput :=
        compress first8Words (setSlice (List.replicate 16 0) 0 rootOutput) counter BLOCK_LEN
          (flags ||| ROOT)
      (wordsToBytes blockOutput).take (min OUT_LEN rem) ++
        expandTail fuel flags rootOutput (counter + 1) (rem - min OUT_LEN rem)

/-- Binary population count, by repeated halving (fuel-based so that it
computes by `decide`; `n` halvings always suffice). -/
def popCountAux : Nat → Nat → Nat
  | 0, _ => 0
  | fuel + 1, n => if n = 0 then 0 else n % 2 + popCountAux fuel (n / 2)

def popCount (n : Nat) : Nat := popCountAux n n

/-- Key derivation as claim C8 words it: stage 1 hashes the context with the
fixed constants as chaining value and only the `DERIVE_KEY_CONTEXT` flag (no
key, no `KEYED_HASH`); stage 2 hashes the material keyed with the context key
under only the `DERIVE_KEY_MATERIAL` flag. -/
def specDeriveKeyC8 (context material : List Nat) (outLen : Nat) : List Nat :=
  let h1 : Blake3Hasher :=
    { chainingValue := first8Words, chunkCounter := 0,
      block := [], blockLen := 0, flags := DERIVE_KEY_CONTEXT, stack := [] }
  let contextKey := (finalize (update h1 context) KEY_LEN).1
  let h2 : Blake3Hasher :=
    { chainingValue := wordsFromBytes (contextKey.take KEY_LEN), chunkCounter := 0,
      block := [], blockLen := 0, flags := DERIVE_KEY_MATERIAL, stack := [] }
  (finalize (update h2 material) outLen).1

/-! ### Lemmas about the embedding -/

set_option maxRecDepth 10000
set_option maxHeartbeats 4000000

theorem setSlice_length (xs : List Nat) :
    ∀ (s : List Nat) (off : Nat), (setSlice s off xs).length = s.length := by
  induction xs with
  | nil => intro s off; rfl
  | cons x xs ih => intro s off; rw [setSlice, ih, List.length_set]

theorem g_length (s : List Nat) (a b c d mx my : Nat) : (g s a b c d mx my).length = s.length := by
  simp [g, List.length_set]

theorem gRound_length (st b : List Nat) : (gRound st b).length = st.length := by
  simp [gRound, g_length]

theorem foldl_length {α : Type} {f : List Nat → α → List Nat}
    (hf : ∀ s i, (f s i).length = s.length) :
    ∀ (l : List α) (st : List Nat), (l.foldl f st).length = st.length := by
  intro l
  induction l with
  | nil => intro st; rfl
  | cons x xs ih => intro st; rw [List.foldl_cons, ih, hf]

theorem feedForward_length (cv st : List Nat) : (feedForward cv st).length = st.length := by
  unfold feedForward
  exact foldl_length (fun s i => by simp [List.length_set]) _ st

theorem compressInit_length (cv : List Nat) (counter blockLen flags : Nat) :
    (compressInit cv counter blockLen flags).length = 16 := by
  simp [compressInit, setSlice_length, List.length_set]

theorem compressFull_length (cv b : List Nat) (counter blockLen flags : Nat) :
    (compressFull cv b counter blockLen flags).length = 16 := by
  unfold compressFull
  rw [feedForward_length, foldl_length (fun s i => gRound_length s b), compressInit_length]

/-! ### Claim C1 -/

/-- Claim C1 is false on the code: `compress` writes all eight IV words at
state offset 4 (`state.set(IV, 4)`), so the chaining value survives only in
words 0-3 and words 4-7 hold IV constants, not CV words.  With an all-zero
chaining value the produced initial state (and the compression output)
differs from the layout the claim describes. -/
theorem c1_counterexample :
    compressInit (List.replicate 8 0) 0 0 0 ≠ specInitC1 (List.replicate 8 0) 0 0 0 ∧
    compress (List.replicate 8 0) (List.replicate 16 0) 0 0 0 ≠
      specCompressC1 (List.replicate 8 0) (List.replicate 16 0) 0 0 0 := by
  decide

/-- Claim C1 amended: for every 8-word chaining value, `compress` initializes
its internal state with the chaining value's first four words in words 0-3,
all eight fixed IV constants in words 4-11 (the upper four CV words are
overwritten), and counter_lo, counter_hi, block_len, flags in words 12-15. -/
theorem c1_state_layout (x0 x1 x2 x3 x4 x5 x6 x7 counter blockLen flags : Nat) :
    compressInit [x0, x1, x2, x3, x4, x5, x6, x7] counter blockLen flags =
      [x0, x1, x2, x3] ++ IV ++
        [counter % 4294967296, counter / 4294967296 % 4294967296, blockLen, flags] := by
  simp [compressInit, setSlice, IV]

/-! ### Claim C2 -/

theorem gRound_eq_scheduled (st b : List Nat) :
    gRound st b = gRoundScheduled st (msgSchedule b) := rfl

/-- Claim C2 is false on the code: running the re-permuting schedule the
claim describes (round 0 on the unpermuted block, table re-applied between
rounds) on the same initial state gives a different result than `compress`,
already on an all-zero chaining value with block words 0..15. -/
theorem c2_counterexample :
    compress (List.replicate 8 0) (List.range 16) 0 64 0 ≠
      specCompressC2 (List.replicate 8 0) (List.range 16) 0 64 0 := by
  decide

/-- Claim C2 amended: every one of the 7 rounds of `compress` reads the
message words through the same fixed index table; the table is applied once
as a read-through permutation and is never re-applied between rounds, so
`compress` equals the formulation in which the permuted word list
`msgSchedule b` is computed once and every round consumes it positionally. -/
theorem c2_fixed_schedule (cv b : List Nat) (counter blockLen flags : Nat) :
    compress cv b counter blockLen flags = compressViaFixedSchedule cv b counter blockLen flags := by
  unfold compress compressViaFixedSchedule compressFull
  have hfn : (fun (st : List Nat) (_ : Nat) => gRound st b) =
      (fun st _ => gRoundScheduled st (msgSchedule b)) :=
    funext fun st => funext fun _ => gRound_eq_scheduled st b
  rw [hfn]

/-! ### Claim C4 -/

theorem ctzAux_odd (fuel pos : Nat) (hp : pos % 2 = 1) : ctzAux fuel pos = 0 := by
  cases fuel with
  | zero => rfl
  | succ f => rw [ctzAux, if_neg]; omega

theorem ctzAux_even_pos (fuel pos : Nat) (hp : pos % 2 = 0) (hpos : 0 < pos) (hf : 0 < fuel) :
    0 < ctzAux fuel pos := by
  cases fuel with
  | zero => omega
  | succ f => rw [ctzAux, if_pos ⟨hpos, hp⟩]; omega

/-- For a stack of length `n ≥ 2`, the levels `getLevel (n-2)` and
`getLevel (n-1)` that the merge loop compares are the trailing-zero counts of
the consecutive integers `n-1` and `n`; one of those is odd (level 0) and the
other even and positive (level ≥ 1), so they always differ. -/
theorem getLevel_adjacent_ne (n : Nat) (hn : 1 < n) : getLevel (n - 2) ≠ getLevel (n - 1) := by
  unfold getLevel
  have h1 : n - 2 + 1 = n - 1 := by omega
  have h2 : n - 1 + 1 = n := by omega
  rw [h1, h2]
  by_cases hp : n % 2 = 0
  · have e1 : ctzAux (n - 1) (n - 1) = 0 := ctzAux_odd _ _ (by omega)
    have e2 : 0 < ctzAux n n := ctzAux_even_pos _ _ hp (by omega) (by omega)
    omega
  · have e1 : ctzAux n n = 0 := ctzAux_odd _ _ (by omega)
    have e2 : 0 < ctzAux (n - 1) (n - 1) := ctzAux_even_pos _ _ (by omega) (by omega) (by omega)
    omega

/-- Because the compared levels always differ, the merge loop never merges:
it is the identity on every hasher state. -/
theorem mergeLoop_eq_id (fuel : Nat) (h : Blake3Hasher) : mergeLoop fuel h = h := by
  cases fuel with
  | zero => rfl
  | succ f =>
    simp only [mergeLoop]
    split
    · rename_i hl
      rw [if_neg (getLevel_adjacent_ne _ hl)]
    · rfl

theorem addChunkChainingValue_eq (h : Blake3Hasher) (cv : List Nat) :
    addChunkChainingValue h cv = { h with stack := h.stack ++ [cv] } := by
  unfold addChunkChainingValue
  exact mergeLoop_eq_id _ _

/-- Claim C4 counterexample: pushing the chaining values of two completed
chunks leaves two entries on the stack, not `popCount 2 = 1`: the merge that
the claim derives never fires. -/
theorem c4_counterexample :
    (addChunkChainingValue (addChunkChainingValue freshHasher (List.replicate 8 1))
        (List.replicate 8 2)).stack.length ≠ popCount 2 := by
  decide

/-- Claim C4 amended: the level of the stack entry at 0-based position `k` is
indeed the trailing-zero count of `k+1`, but under that rule the two topmost
entries of a stack of length `n ≥ 2` (positions `n-2` and `n-1`) never have
equal level, so the merge loop never merges: each push appends one entry and
after `n` complete chunks the stack holds exactly `n` entries (O(n) depth),
not `popCount n`. -/
theorem c4_stack_append (h : Blake3Hasher) (cv : List Nat) :
    (addChunkChainingValue h cv).stack = h.stack ++ [cv] ∧
    (∀ n : Nat, 1 < n → getLevel (n - 2) ≠ getLevel (n - 1)) := by
  constructor
  · rw [addChunkChainingValue_eq]
  · exact fun n hn => getLevel_adjacent_ne n hn

theorem c4_witness :
    (addChunkChainingValue freshHasher (List.replicate 8 1)).stack =
      freshHasher.stack ++ [List.replicate 8 1] ∧
    (1 < 2 ∧ getLevel 0 ≠ getLevel 1) :=
  ⟨(c4_stack_append freshHasher (List.replicate 8 1)).1,
   by decide, (c4_stack_append freshHasher (List.replicate 8 1)).2 2 (by decide)⟩

/-! ### Claim C10 -/

theorem finalizePending_blockLen (h : Blake3Hasher) : (finalizePending h).blockLen = 0 := by
  unfold finalizePending
  split
  · rfl
  · rename_i hn; omega

theorem finalizePending_of_blockLen_zero (h : Blake3Hasher) (hb : h.blockLen = 0) :
    finalizePending h = h := by
  unfold finalizePending
  rw [if_neg]
  omega

theorem finalizePending_idem (h : Blake3Hasher) :
    finalizePending (finalizePending h) = finalizePending h :=
  finalizePending_of_blockLen_zero _ (finalizePending_blockLen h)

/-- Claim C10 confirmed: `finalize` pushes a pending partial block at most
once — the state it returns has an empty buffer, so a second `finalize`
leaves the state unchanged and returns byte-for-byte the same output (no
double-counting of the pending block). -/
theorem c10_finalize_idempotent (h : Blake3Hasher) (n : Nat) :
    finalize (finalize h n).2 n = finalize h n := by
  show (rootBytes (finalizePending (finalizePending h)) n, finalizePending (finalizePending h)) =
      (rootBytes (finalizePending h) n, finalizePending h)
  rw [finalizePending_idem]

/-! ### Claim C9 -/

/-- Claim C9 confirmed: keyed construction (and hence `keyedHash`) fails with
`invalidKeyLength` exactly when the key is not 32 bytes — the failure happens
in the constructor, independent of the input and before any compression, and
produces no output; with a 32-byte key the construction succeeds, the initial
chaining value is the key words and the flag set is `KEYED_HASH`. -/
theorem c9_key_length (key input : List Nat) (n : Nat) :
    (key.length ≠ 32 → keyedHash key input n = Except.error Blake3Error.invalidKeyLength) ∧
    (key.length = 32 →
      mkHasher (some key) KEYED_HASH =
        Except.ok { chainingValue := wordsFromBytes (key.take KEY_LEN), chunkCounter := 0,
                    block := [], blockLen := 0, flags := KEYED_HASH, stack := [] } ∧
      keyedHash key input n =
        Except.ok ((finalize (update
          (⟨wordsFromBytes (key.take KEY_LEN), 0, [], 0, KEYED_HASH, []⟩ : Blake3Hasher)
          input) n).1)) := by
  have hor : KEYED_HASH ||| KEYED_HASH = KEYED_HASH := by decide
  constructor
  · intro hne
    simp [keyedHash, mkHasher, KEY_LEN, hne, Except.map]
  · intro he
    simp [keyedHash, mkHasher, KEY_LEN, he, hor, Except.map]

theorem c9_witness :
    ((List.replicate 31 0).length ≠ 32 ∧
      keyedHash (List.replicate 31 0) [1, 2] 32 = Except.error Blake3Error.invalidKeyLength) ∧
    ((List.replicate 32 7).length = 32 ∧
      mkHasher (some (List.replicate 32 7)) KEYED_HASH =
        Except.ok { chainingValue := wordsFromBytes ((List.replicate 32 7).take KEY_LEN),
                    chunkCounter := 0, block := [], blockLen := 0, flags := KEYED_HASH,
                    stack := [] }) :=
  ⟨⟨by decide, (c9_key_length (List.replicate 31 0) [1, 2] 32).1 (by decide)⟩,
   ⟨by decide, ((c9_key_length (List.replicate 32 7) [] 32).2 (by decide)).1⟩⟩

/-! ### Claim C7 -/

theorem compressBlock_blockLen (h : Blake3Hasher) : (compressBlock h).blockLen = h.blockLen := by
  simp [compressBlock]

theorem addChunkChainingValue_blockLen (h : Blake3Hasher) (cv : List Nat) :
    (addChunkChainingValue h cv).blockLen = h.blockLen := by
  rw [addChunkChainingValue_eq]

theorem compressChunk_blockLen (h : Blake3Hasher) (chunk : List Nat) (counter : Nat) :
    (compressChunk h chunk counter).blockLen = h.blockLen := by
  unfold compressChunk
  rw [addChunkChainingValue_eq]

theorem chunkLoop_blockLen (fuel : Nat) :
    ∀ (h : Blake3Hasher) (data : List Nat), (chunkLoop fuel h data).1.blockLen = h.blockLen := by
  induction fuel with
  | zero => intro h data; rfl
  | succ f ih =>
    intro h data
    rw [chunkLoop]
    split
    · rw [ih]
      exact compressChunk_blockLen h _ _
    · rfl

theorem fillPartial_blockLen_le (h : Blake3Hasher) (data : List Nat) (hb : h.blockLen ≤ 64) :
    (fillPartial h data).1.blockLen ≤ 64 := by
  have hmin := Nat.min_le_left (BLOCK_LEN - h.blockLen) data.length
  simp only [BLOCK_LEN] at hmin
  simp only [fillPartial, BLOCK_LEN]
  split
  · split
    · simp
    · simp
      omega
  · exact hb

theorem fillRemaining_blockLen_le (h : Blake3Hasher) (data : List Nat) (hb : h.blockLen ≤ 64) :
    (fillRemaining h data).1.blockLen ≤ 64 := by
  have hmin := Nat.min_le_right data.length (BLOCK_LEN - h.blockLen)
  simp only [BLOCK_LEN] at hmin
  simp only [fillRemaining, BLOCK_LEN]
  split
  · exact hb
  · simp
    omega

theorem updateLoop_blockLen_le (fuel : Nat) :
    ∀ (h : Blake3Hasher) (data : List Nat), h.blockLen ≤ 64 →
      (updateLoop fuel h data).blockLen ≤ 64 := by
  induction fuel with
  | zero => intro h data hb; exact hb
  | succ f ih =>
    intro h data hb
    rw [updateLoop]
    split
    · exact hb
    · apply ih
      apply fillRemaining_blockLen_le
      rw [chunkLoop_blockLen]
      exact fillPartial_blockLen_le h data hb

/-- Claim C7 counterexample: a single `update` of exactly 64 bytes on a fresh
hasher returns with the pending buffer holding a full 64-byte block — the
buffer length is not in `[0, 64)` after the call (the block is flushed only
by a later `update` or by `finalize`). -/
theorem c7_counterexample :
    ¬ (update freshHasher (List.replicate 64 0)).blockLen < 64 := by
  decide

/-- Claim C7 amended: after any `update` call on a hasher whose buffer held
at most 64 bytes, the buffer length is in `[0, 64]` — a full 64-byte block
may remain buffered — and after `finalize` the buffer length is 0. -/
theorem c7_buffer_invariant (h : Blake3Hasher) (data : List Nat) (n : Nat) :
    (h.blockLen ≤ 64 → (update h data).blockLen ≤ 64) ∧ (finalize h n).2.blockLen = 0 := by
  constructor
  · intro hb
    exact updateLoop_blockLen_le _ h data hb
  · exact finalizePending_blockLen h

theorem c7_witness :
    (freshHasher.blockLen ≤ 64 ∧ (update freshHasher [5]).blockLen ≤ 64) ∧
    (finalize freshHasher 32).2.blockLen = 0 :=
  ⟨⟨by decide, (c7_buffer_invariant freshHasher [5] 32).1 (by decide)⟩,
   (c7_buffer_invariant freshHasher [] 32).2⟩

/-! ### Claim C5 -/

/-- Claim C5 counterexample: on the one-byte input `[97]` the output of
`hash` differs from the root the claim describes, namely the final chunk's
own message block, block length and counter compressed once with `ROOT`
added to the chunk's flag set. -/
theorem c5_counterexample :
    hash [97] 32 ≠
      expandOutput 0
        (compress first8Words (wordsFromBytes [97]) 0 1 (CHUNK_START ||| CHUNK_END ||| ROOT))
        32 := by
  decide

/-- Claim C5 amended: the root is an additional, separate compression: for
every hasher state, the bytes returned by `finalize` are the expansion of a
compression whose message block is the final node's output chaining value
zero-padded to 16 words, with chaining-value input `first8Words`, counter 0,
block length 64 and flags `flags | ROOT` — the final node's own message
block, block length, counter and chunk/parent flags are not reused. -/
theorem c5_root_recompression (h : Blake3Hasher) (n : Nat) :
    (finalize h n).1 =
      expandOutput (finalizePending h).flags
        (compress first8Words
          (setSlice (List.replicate 16 0) 0 (finalNodeCV (finalizePending h))) 0 BLOCK_LEN
          ((finalizePending h).flags ||| ROOT)) n := by
  show rootBytes (finalizePending h) n = _
  generalize finalizePending h = h1
  unfold rootBytes finalNodeCV
  by_cases hc : h1.chunkCounter = 0 ∧ h1.stack.length = 0
  · rw [if_pos hc, if_pos hc]
  · rw [if_neg hc, if_neg hc]

/-! ### Claim C6 -/

theorem compress_length (cv b : List Nat) (counter blockLen flags : Nat) :
    (compress cv b counter blockLen flags).length = 8 := by
  simp [compress, List.length_take, compressFull_length]

theorem expandLoop_eq_tail (fuel : Nat) :
    ∀ (flags : Nat) (ro : List Nat) (counter offset outLen : Nat), offset ≤ outLen →
      expandLoop fuel flags ro counter offset outLen =
        expandTail fuel flags ro counter (outLen - offset) := by
  induction fuel with
  | zero => intro flags ro c o n hle; rfl
  | succ f ih =>
    intro flags ro c o n hle
    simp only [expandLoop, expandTail]
    by_cases hlt : o < n
    · rw [if_pos hlt, if_neg (by omega : ¬ n - o = 0)]
      have htk : min OUT_LEN (n - o) ≤ n - o := Nat.min_le_right _ _
      rw [ih flags ro (c + 1) (o + min OUT_LEN (n - o)) n (by omega)]
      have harith : n - (o + min OUT_LEN (n - o)) = n - o - min OUT_LEN (n - o) := by omega
      rw [harith]
    · rw [if_neg hlt, if_pos (by omega : n - o = 0)]

/-- Claim C6 counterexample: `compress` does not retain a 16-word result (it
returns 8 words), and for the empty input requested at 64 bytes the second
32-byte slice is not a counter-1 root compression of the same message block
as the first root compression (the zero-padded final CV): the claimed
construction produces different bytes. -/
theorem c6_counterexample :
    (compress first8Words (List.replicate 16 0) 0 0 0).length ≠ 16 ∧
    hash [] 64 ≠
      hash [] 32 ++
        (wordsToBytes (compress first8Words
          (setSlice (List.replicate 16 0) 0
            (compress first8Words (List.replicate 16 0) 0 0 (CHUNK_START ||| CHUNK_END)))
          1 BLOCK_LEN ROOT)).take 32 := by
  decide

/-- Claim C6 amended: `compress` always returns exactly 8 words (the
feed-forward second half is computed in `compressFull` but discarded by the
`slice(0, 8)`), and when `outLen` exceeds 32 the extra output is generated by
root-flagged compressions whose message block is the zero-padded 8-word root
output — not the root's original message block — with the counter starting at
1 and incrementing per slice, the last slice truncated to reach `outLen`. -/
theorem c6_output_expansion :
    (∀ cv b counter blockLen flags, (compress cv b counter blockLen flags).length = 8) ∧
    (∀ flags ro n, OUT_LEN < n →
      expandOutput flags ro n =
        (wordsToBytes ro).take OUT_LEN ++ expandTail n flags ro 1 (n - OUT_LEN)) := by
  constructor
  · exact compress_length
  · intro flags ro n hn
    simp only [OUT_LEN] at hn
    simp only [expandOutput, OUT_LEN]
    rw [if_neg (by omega : ¬ n ≤ 32)]
    rw [Nat.min_eq_left (by omega : 32 ≤ n)]
    rw [expandLoop_eq_tail n flags ro 1 32 n (by omega)]

theorem c6_witness :
    OUT_LEN < 40 ∧
    expandOutput 0 (List.replicate 8 0) 40 =
      (wordsToBytes (List.replicate 8 0)).take OUT_LEN ++
        expandTail 40 0 (List.replicate 8 0) 1 (40 - OUT_LEN) :=
  ⟨by decide, c6_output_expansion.2 0 (List.replicate 8 0) 40 (by decide)⟩

/-! ### Claim C3 -/

theorem fillPartial_small (h : Blake3Hasher) (d : List Nat) (hpos : 0 < h.blockLen)
    (hlen : h.blockLen + d.length ≤ 63) :
    fillPartial h d = ({ h with block := h.block ++ d, blockLen := h.blockLen + d.length }, []) := by
  have htk : min (BLOCK_LEN - h.blockLen) d.length = d.length := by
    simp only [BLOCK_LEN]
    omega
  simp only [fillPartial, if_pos hpos, htk, List.take_length, List.drop_length]
  rw [if_neg (show ¬ (h.blockLen + d.length = BLOCK_LEN) by simp only [BLOCK_LEN]; omega)]

theorem fillPartial_zero (h : Blake3Hasher) (d : List Nat) (hz : ¬ 0 < h.blockLen) :
    fillPartial h d = (h, d) := by
  simp only [fillPartial, if_neg hz]

theorem fillRemaining_small (h : Blake3Hasher) (d : List Nat) (hne : ¬ (d.isEmpty = true))
    (hlen : d.length ≤ BLOCK_LEN - h.blockLen) :
    fillRemaining h d = ({ h with block := h.block ++ d, blockLen := h.blockLen + d.length }, []) := by
  have hwant : min d.length (BLOCK_LEN - h.blockLen) = d.length := Nat.min_eq_left hlen
  simp only [fillRemaining, if_neg hne, hwant, List.take_length, List.drop_length]

theorem fillRemaining_nil (h : Blake3Hasher) : fillRemaining h [] = (h, []) := by
  simp [fillRemaining]

theorem chunkLoop_small (h : Blake3Hasher) (d : List Nat) (hlt : d.length < CHUNK_LEN) :
    chunkLoop (d.length / CHUNK_LEN + 1) h d = (h, d) := by
  rw [Nat.div_eq_of_lt hlt, chunkLoop, if_neg (by omega)]

theorem updateLoop_nil (fuel : Nat) (h : Blake3Hasher) : updateLoop fuel h [] = h := by
  cases fuel with
  | zero => rfl
  | succ f => simp [updateLoop]

/-- One `update` whose input still fits in the pending buffer (total below 64
bytes) only appends the bytes to the buffer. -/
theorem update_small (h : Blake3Hasher) (d : List Nat)
    (hlen : h.blockLen + d.length ≤ 63) :
    update h d = { h with block := h.block ++ d, blockLen := h.blockLen + d.length } := by
  cases d with
  | nil =>
    show updateLoop 1 h [] = _
    simp [updateLoop]
  | cons x xs =>
    show updateLoop ((x :: xs).length + 1) h (x :: xs) = _
    rw [show (x :: xs).length + 1 = xs.length + 1 + 1 from by simp]
    rw [updateLoop]
    rw [if_neg (by simp : ¬ ((x :: xs).isEmpty = true))]
    by_cases hpos : 0 < h.blockLen
    · rw [fillPartial_small h (x :: xs) hpos hlen]
      dsimp only
      rw [chunkLoop_small _ _ (by simp [CHUNK_LEN])]
      dsimp only
      rw [fillRemaining_nil]
      rfl
    · rw [fillPartial_zero h (x :: xs) hpos]
      dsimp only
      rw [chunkLoop_small _ _
        (by simp only [List.length_cons] at hlen; simp only [CHUNK_LEN, List.length_cons]; omega)]
      dsimp only
      rw [fillRemaining_small h (x :: xs) (by simp)
        (by simp only [List.length_cons] at hlen; simp only [BLOCK_LEN, List.length_cons]; omega)]
      rfl

theorem foldl_update_small (pieces : List (List Nat)) :
    ∀ (h : Blake3Hasher), h.blockLen + (pieces.flatten).length ≤ 63 →
      pieces.foldl update h =
        { h with block := h.block ++ pieces.flatten,
                 blockLen := h.blockLen + (pieces.flatten).length } := by
  induction pieces with
  | nil =>
    intro h _
    simp
  | cons p ps ih =>
    intro h hl
    simp only [List.flatten_cons, List.length_append] at hl
    rw [List.foldl_cons]
    rw [update_small h p (by omega)]
    rw [ih _ (by simp only [List.length_append]; omega)]
    simp [List.flatten_cons, List.append_assoc, Nat.add_assoc, List.length_append]

/-- Claim C3 counterexample: splitting 64 zero bytes into two 32-byte update
calls gives a different digest than the one-shot `hash` of the same 64 bytes
(the second call flushes a full buffer through `compressBlock`, a path the
one-shot call never takes). -/
theorem c3_counterexample :
    hash (List.replicate 64 0) 32 ≠
      (finalize (update (update freshHasher (List.replicate 32 0))
        (List.replicate 32 0)) 32).1 := by
  decide

/-- Claim C3 amended: chunking invariance holds only while the total input is
below one block: for every way of splitting an input of at most 63 bytes into
pieces, feeding the pieces to a fresh hasher by successive `update` calls and
finalizing gives the same bytes as the one-shot `hash` of the concatenation
(both only accumulate the bytes in the pending buffer).  For 64 bytes or more
the equality fails, as the counterexample shows. -/
theorem c3_chunking (pieces : List (List Nat)) (n : Nat)
    (hlen : (pieces.flatten).length ≤ 63) :
    (finalize (pieces.foldl update freshHasher) n).1 = hash pieces.flatten n := by
  rw [foldl_update_small pieces freshHasher (by simpa [freshHasher] using hlen)]
  unfold hash
  rw [update_small freshHasher pieces.flatten (by simpa [freshHasher] using hlen)]

theorem c3_witness :
    (([[1], [2]] : List (List Nat)).flatten.length ≤ 63) ∧
    (finalize (([[1], [2]] : List (List Nat)).foldl update freshHasher) 32).1 =
      hash ([[1], [2]] : List (List Nat)).flatten 32 :=
  ⟨by decide, c3_chunking [[1], [2]] 32 (by decide)⟩

/-! ### Claim C8 -/

theorem wordsToBytes_length (ws : List Nat) : (wordsToBytes ws).length = 4 * ws.length := by
  induction ws with
  | nil => rfl
  | cons w ws ih =>
    simp only [wordsToBytes, List.foldr_cons] at ih ⊢
    simp [ih]
    omega

theorem wordsFromBytes_length (bs : List Nat) : (wordsFromBytes bs).length = 16 := by
  simp [wordsFromBytes]

/-- Claim C8 counterexample: on the empty context and empty key material the
code's `deriveKey` output differs from the two-stage construction the claim
describes (stage 1 keyed by the fixed constants with only the
`DERIVE_KEY_CONTEXT` flag). -/
theorem c8_counterexample :
    (deriveKey [] [] 32).toOption ≠ some (specDeriveKeyC8 [] [] 32) := by
  decide

/-- Claim C8 amended: stage 1 keys the hasher with the all-zero 32-byte key —
its chaining value is the sixteen zero words, not the fixed constants — and
its flag word is 48 = `DERIVE_KEY_CONTEXT ||| KEYED_HASH` (the keyed
constructor ORs `KEYED_HASH` in); stage 2 is keyed with the derived context
key and runs with flag word 80 = `DERIVE_KEY_MATERIAL ||| KEYED_HASH`, hashes
the material and finalizes to the requested length. -/
theorem c8_two_stage (context material : List Nat) (n : Nat) :
    deriveKey context material n =
      (let stage1 : Blake3Hasher := ⟨List.replicate 16 0, 0, [], 0, 48, []⟩
       let contextKey := (finalize (update stage1 context) KEY_LEN).1
       let keyBytes := wordsToBytes ((wordsFromBytes (contextKey.take KEY_LEN)).take 8)
       let stage2 : Blake3Hasher := ⟨wordsFromBytes (keyBytes.take KEY_LEN), 0, [], 0, 80, []⟩
       Except.ok ((finalize (update stage2 material) n).1)) := by
  have hzk : wordsFromBytes ((List.replicate KEY_LEN 0).take KEY_LEN) = List.replicate 16 0 := by
    decide
  have hf1 : DERIVE_KEY_CONTEXT ||| KEYED_HASH = 48 := by decide
  have hf2 : DERIVE_KEY_MATERIAL ||| KEYED_HASH = 80 := by decide
  simp only [deriveKey, deriveKeyFromContext, mkHasher, bind, Except.bind, Except.map,
    hzk, hf1, hf2]
  rw [if_neg (by simp [KEY_LEN])]
  simp only [Except.map]
  rw [if_neg (by rw [wordsToBytes_length, List.length_take, wordsFromBytes_length]; decide)]
  rfl

end B3
